import Mathlib

/-
Shallow embedding of `hardliner` (src/hardliner/src/lib.rs), a DWARF
symbolication library.  The embedding models the decoded DWARF input
directly: section references (range lists, location lists, strings) are
pre-resolved into their decoded values, machine integers are `Nat`,
signed DFS depths are `Int`.  Rust `Result` errors and panics
(`unreachable!`, `expect`, `panic!`) are both modelled as `none` of an
`Option`-valued function: in either case the operation does not produce
a value.  Laziness of the Rust iterators is modelled by draining each
iterator into the list of the items it yields.
-/

namespace Hardliner

/-- A half-open PC range, `gimli::Range { begin, end }`. -/
structure Range where
  begin : Nat
  end' : Nat
deriving DecidableEq

/-- The DIE tags the library inspects; every other tag is `otherTag`. -/
inductive DwTag where
  | compileUnit
  | subprogram
  | inlinedSubroutine
  | variableDie
  | lexicalBlock
  | otherTag
deriving DecidableEq

/-- The DWARF language codes the library distinguishes
(`DW_LANG_Rust`, the C++ tags, and everything else). -/
inductive DwLang where
  | rust
  | cPlusPlus
  | cPlusPlus03
  | cPlusPlus11
  | cPlusPlus14
  | otherLang
deriving DecidableEq

/-- A string-typed attribute value: `string_value` on it yields
`some` for a string form and `none` for any other form. -/
inductive StrAttr where
  | strval (s : String)
  | nonString
deriving DecidableEq

/-- Model of `gimli::AttributeValue::string_value`. -/
def StrAttr.string_value : StrAttr → Option String
  | .strval s => some s
  | .nonString => none

/-- An attribute value in address position: `Addr`, `Udata`, or some
other form (the `_` arms of the source matches). -/
inductive AddrAttr where
  | addr (a : Nat)
  | udata (x : Nat)
  | otherForm
deriving DecidableEq

/-- An attribute value from which `udata_value` is taken
(`DW_AT_call_line` / `DW_AT_call_column`). -/
inductive UdataAttr where
  | udata (n : Nat)
  | otherForm
deriving DecidableEq

/-- Model of `gimli::AttributeValue::udata_value`. -/
def UdataAttr.udata_value : UdataAttr → Option Nat
  | .udata n => some n
  | .otherForm => none

/-- A `DW_AT_ranges` attribute value.  `debugRangesRef` carries the
range list already decoded from the ranges section. -/
inductive RangesAttr where
  | debugRangesRef (rs : List Range)
  | otherForm
deriving DecidableEq

/-- A `DW_AT_stmt_list` attribute value. -/
inductive StmtListAttr where
  | debugLineRef (dlr : Nat)
  | otherForm
deriving DecidableEq

/-- A `DW_AT_language` attribute value. -/
inductive LangAttr where
  | language (l : DwLang)
  | otherForm
deriving DecidableEq

/-- A `DW_AT_abstract_origin` attribute value; `unitRef` is a
unit-relative DIE offset. -/
inductive AOriginAttr where
  | unitRef (off : Nat)
  | otherForm
deriving DecidableEq

/-- One location-list entry: a PC range and the location expression
bytes that apply on it. -/
structure LocEntry where
  range : Range
  data : List Nat
deriving DecidableEq

/-- A `DW_AT_location` attribute value.  `debugLocRef` carries the
location list already decoded from the loc section. -/
inductive LocAttr where
  | debugLocRef (es : List LocEntry)
  | otherForm
deriving DecidableEq

/-- A `DW_AT_call_file` attribute value. -/
inductive CallFileAttr where
  | fileIndex (fi : Nat)
  | otherForm
deriving DecidableEq

/-- The attributes of a DIE that the library reads.  Absent attributes
are `none`. -/
structure DieAttrs where
  stmt_list : Option StmtListAttr := none
  low_pc : Option AddrAttr := none
  high_pc : Option AddrAttr := none
  ranges : Option RangesAttr := none
  language : Option LangAttr := none
  comp_dir : Option StrAttr := none
  name : Option StrAttr := none
  linkage_name : Option StrAttr := none
  abstract_origin : Option AOriginAttr := none
  location : Option LocAttr := none
  call_file : Option CallFileAttr := none
  call_line : Option UdataAttr := none
  call_column : Option UdataAttr := none

/-- A DIE: tag, attributes and children, as traversed by the
`EntriesCursor` DFS. -/
inductive Die where
  | mk (tag : DwTag) (attrs : DieAttrs) (children : List Die)

def Die.tag : Die → DwTag
  | .mk t _ _ => t

def Die.attrs : Die → DieAttrs
  | .mk _ a _ => a

def Die.children : Die → List Die
  | .mk _ _ c => c

mutual

/-- DFS preorder of a DIE tree paired with the signed depth of each
entry, as produced by repeated `cursor.next_dfs()` with the running
`depth += delta` counter of `parse_functions`. -/
def dfsDepth : Die → Int → List (Int × Die)
  | .mk t a cs, depth => (depth, .mk t a cs) :: dfsDepthChildren cs (depth + 1)

/-- DFS preorder of a forest of sibling DIEs at a fixed depth. -/
def dfsDepthChildren : List Die → Int → List (Int × Die)
  | [], _ => []
  | c :: rest, depth => dfsDepth c depth ++ dfsDepthChildren rest depth

end

/-- DFS preorder of a DIE tree.  A DIE's unit offset (`entry.offset()`,
`entries_at_offset`) is modelled as its index in this list. -/
def dfsList (d : Die) : List Die := (dfsDepth d 0).map Prod.snd

/-- Model of `read_ranges`.  The outer `Option` is the
panic/error channel (`unreachable!` on an unexpected `DW_AT_ranges`
form); the inner `Option` distinguishes "no range information" (`none`)
from a produced range sequence, drained into a list (the synthetic
iterator yields exactly one range). -/
def read_ranges (a : DieAttrs) : Option (Option (List Range)) :=
  match a.ranges with
  | none =>
    match a.low_pc with
    | some (.addr low_pc) =>
      match a.high_pc with
      | some (.addr high_pc) => some (some [⟨low_pc, high_pc⟩])
      | some (.udata x) => some (some [⟨low_pc, low_pc + x⟩])
      | _ => some none
    | _ => some none
  | some (.debugRangesRef rr) => some (some rr)
  | some .otherForm => none

/-- One file entry of a line-number program header, with its directory
already resolved to a string. -/
structure FileEntry where
  directory : Option String
  path_name : String
deriving DecidableEq

/-- Model of `gimli::ColumnType`. -/
inductive ColumnType where
  | leftEdge
  | column (x : Nat)
deriving DecidableEq

/-- One row of the line-number state machine, with the file already
looked up (`row.file(header)`). -/
structure Row where
  address : Nat
  file : Option FileEntry
  line : Option Nat
  column : ColumnType
deriving DecidableEq

/-- One line-number sequence: its PC bounds and the rows the state
machine produces when resumed from it, in order. -/
structure LineSeq where
  start : Nat
  end' : Nat
  rows : List Row
deriving DecidableEq

/-- A decoded complete line-number program: the header's file table and
the sequences, in decode order (unsorted). -/
structure LineProg where
  files : List FileEntry
  sequences : List LineSeq
deriving DecidableEq

/-- Model of `header.file(fi)`: DWARF (pre-v5) file indices are 1-based
and index 0 means "no file". -/
def headerFile (lp : LineProg) (fi : Nat) : Option FileEntry :=
  if fi = 0 then none else lp.files[fi - 1]?

/-- A file path, as the list of components pushed onto the `PathBuf`. -/
abbrev Path := List String

/-- Model of `render_file`: start from the compilation directory when
present, push the file entry's directory when present, push the file
name. -/
def render_file (dcd : Option String) (fe : FileEntry) : Path :=
  (match dcd with
   | some d => [d]
   | none => []) ++
  (match fe.directory with
   | some dir => [dir]
   | none => []) ++ [fe.path_name]

/-- Model of `Location`, with the file path in component form. -/
structure Location where
  file : Option Path
  line : Option Nat
  column : Option Nat
deriving DecidableEq

/-- Per-CU decoded state, `UnitInner`. -/
structure UnitInner where
  lnp : LineProg
  sequences : List LineSeq
  comp_dir : Option String
  lang : DwLang
  base_addr : Nat
deriving DecidableEq

/-- A resolved unit, `ResUnit`: the CU's DIE tree (standing for the
header, abbreviations and cursor state) plus the inner state. -/
structure ResUnit where
  root : Die
  inner : UnitInner

/-- The Light Context: the sorted unit-range table and the resolved
units. -/
structure Context where
  unit_ranges : List (Range × Nat)
  units : List ResUnit

/-- The debug-line section, mapping `stmt_list` offsets to decoded
line-number programs (`debug_line.program`); a missing entry models a
line-program parse error. -/
structure SectionsIn where
  debug_line : List (Nat × LineProg)

/-- One compilation unit of the debug-info section: the DIE tree read
by the cursor, `none` when the first `next_dfs` yields nothing. -/
structure RawCU where
  root : Option Die

/-- The per-CU step of `Context::new`.  Returns the unchanged state for
a skipped CU (`continue`), the extended state for an indexed CU, and
`none` when the source panics (`unreachable!` on a missing or
ill-formed `stmt_list`, or inside `read_ranges`) or a parse error
aborts construction. -/
def buildStep (sections : SectionsIn)
    (st : List (Range × Nat) × List ResUnit) (cu : RawCU) :
    Option (List (Range × Nat) × List ResUnit) :=
  let unit_id := st.2.length
  match cu.root with
  | none => some st
  | some unit =>
    if unit.tag = DwTag.compileUnit then
      match unit.attrs.stmt_list with
      | some (.debugLineRef dlr) =>
        let dcd := unit.attrs.comp_dir.bind StrAttr.string_value
        match unit.attrs.low_pc with
        | some (.addr base_addr) =>
          match unit.attrs.language with
          | some (.language lang) =>
            match read_ranges unit.attrs with
            | none => none
            | some ropt =>
              let pushed :=
                match ropt with
                | some rs =>
                  (rs.filter fun r => !(r.begin == r.end')).map fun r => (r, unit_id)
                | none => []
              match sections.debug_line.lookup dlr with
              | none => none
              | some ilnp =>
                let sequences :=
                  List.insertionSort (fun a b => a.start ≤ b.start) ilnp.sequences
                some (st.1 ++ pushed,
                      st.2 ++ [⟨unit, ⟨ilnp, sequences, dcd, lang, base_addr⟩⟩])
          | _ => some st
        | _ => some st
      | _ => none
    else some st

/-- Folds `buildStep` over the units of the debug-info section. -/
def buildAll (sections : SectionsIn) :
    List RawCU → List (Range × Nat) × List ResUnit →
    Option (List (Range × Nat) × List ResUnit)
  | [], st => some st
  | cu :: rest, st =>
    match buildStep sections st cu with
    | none => none
    | some st2 => buildAll sections rest st2

/-- Model of `Context::new`: walk all CUs, then sort the unit-range
buffer by `begin`.  The result is `none` when construction panics or a
parse error surfaces. -/
def Context.new (sections : SectionsIn) (cus : List RawCU) : Option Context :=
  (buildAll sections cus ([], [])).map fun st =>
    ⟨List.insertionSort (fun a b => a.1.begin ≤ b.1.begin) st.1, st.2⟩

/-- A function record, `Func`: owning CU, DIE offset (DFS index) and
signed DFS depth. -/
structure Func where
  unit_id : Nat
  entry_off : Nat
  depth : Int
deriving DecidableEq

/-- The Full Context: the interval tree is modelled as the list of its
elements (the tree stores every inserted element; only point queries
filter by containment). -/
structure FullContext where
  funcs : List (Range × Func)
  light : Context

/-- The per-DIE step of `parse_functions` over the depth-annotated DFS
list of one unit, with each entry's DFS index attached. -/
def funcElemsAux (unit_id : Nat) :
    List (Nat × (Int × Die)) → Option (List (Range × Func))
  | [] => some []
  | (off, (depth, d)) :: rest =>
    let cur : Option (List (Range × Func)) :=
      if d.tag = DwTag.subprogram ∨ d.tag = DwTag.inlinedSubroutine then
        match read_ranges d.attrs with
        | none => none
        | some none => some []
        | some (some rs) => some (rs.map fun r => (r, ⟨unit_id, off, depth⟩))
      else some []
    match cur, funcElemsAux unit_id rest with
    | some c, some r => some (c ++ r)
    | _, _ => none

/-- The elements contributed by one unit in `parse_functions`. -/
def funcElems (unit_id : Nat) (u : ResUnit) : Option (List (Range × Func)) :=
  funcElemsAux unit_id (dfsDepth u.root 0).enum

/-- Collects the interval-tree elements of all units, in order. -/
def funcElemsAll : List (Nat × ResUnit) → Option (List (Range × Func))
  | [] => some []
  | (unit_id, u) :: rest =>
    match funcElems unit_id u, funcElemsAll rest with
    | some c, some r => some (c ++ r)
    | _, _ => none

/-- Model of `Context::parse_functions`. -/
def Context.parse_functions (ctx : Context) : Option FullContext :=
  (funcElemsAll ctx.units.enum).map fun elems => ⟨elems, ctx⟩

/-- The Rust `Ordering`-valued comparator of `find_location`'s binary
search over the unit-range table. -/
def unitRangeCmp (probe : Nat) (r : Range × Nat) : Ordering :=
  if probe < r.1.begin then .gt
  else if probe ≥ r.1.end' then .lt
  else .eq

/-- The comparator of `find_location_inner`'s binary search over the
sorted line sequences. -/
def seqCmp (probe : Nat) (ln : LineSeq) : Ordering :=
  if probe < ln.start then .gt
  else if probe ≥ ln.end' then .lt
  else .eq

/-- The loop of Rust's `slice::binary_search_by` on `l[left..right]`,
with `mid = left + (right - left) / 2` written out: `Ok` carries an
index whose comparator value is `Equal`, `Err` the insertion point.
The loop is bounded by fuel so that it computes structurally; the
window shrinks at every iteration, so any fuel beyond the initial
window size never runs out. -/
def bsGo (f : α → Ordering) (l : List α) : Nat → Nat → Nat → Except Nat Nat
  | 0, left, _right => Except.error left
  | fuel + 1, left, right =>
    if left < right then
      match l[left + (right - left) / 2]? with
      | none => Except.error left
      | some x =>
        match f x with
        | .lt => bsGo f l fuel (left + (right - left) / 2 + 1) right
        | .gt => bsGo f l fuel left (left + (right - left) / 2)
        | .eq => Except.ok (left + (right - left) / 2)
    else Except.error left

/-- Model of `slice::binary_search_by`. -/
def binary_search_by (f : α → Ordering) (l : List α) : Except Nat Nat :=
  bsGo f l (l.length + 1) 0 l.length

/-- The row walk of `find_location_inner`: keep the last row whose
address is ≤ probe, stop at the first row beyond the probe. -/
def walkRows (probe : Nat) :
    List Row → Option FileEntry × Option Nat × Option Nat →
    Option FileEntry × Option Nat × Option Nat
  | [], acc => acc
  | r :: rs, acc =>
    if r.address > probe then acc
    else
      walkRows probe rs
        (r.file, r.line,
          match r.column with
          | .leftEdge => none
          | .column x => some x)

/-- The location `find_location_inner` builds from the sequence the
binary search selected: the row walk's final file/line/column, the file
rendered against the compilation directory. -/
def seqLocation (probe : Nat) (uunit : UnitInner) (ln : LineSeq) : Location :=
  let res := walkRows probe ln.rows (none, none, none)
  ⟨res.1.map (render_file uunit.comp_dir), res.2.1, res.2.2⟩

/-- Model of `Context::find_location_inner`.  The impossible
out-of-bounds index after a successful binary search is mapped to
`none`. -/
def Context.find_location_inner (probe : Nat) (uunit : UnitInner) : Option Location :=
  match binary_search_by (seqCmp probe) uunit.sequences with
  | .error _ => none
  | .ok idx =>
    match uunit.sequences[idx]? with
    | none => none
    | some ln => some (seqLocation probe uunit ln)

/-- Model of `Context::find_location`. -/
def Context.find_location (ctx : Context) (probe : Nat) : Option Location :=
  match binary_search_by (unitRangeCmp probe) ctx.unit_ranges with
  | .error _ => none
  | .ok idx =>
    match ctx.unit_ranges[idx]? with
    | none => none
    | some (_, unit_id) =>
      match ctx.units[unit_id]? with
      | none => none
      | some u => Context.find_location_inner probe u.inner

/-- Selector for the string attribute `str_attr` resolves
(`DW_AT_linkage_name` for frames, `DW_AT_name` for variables). -/
inductive StrAt where
  | linkage
  | nameAt
deriving DecidableEq

/-- Reads the selected string attribute of a DIE. -/
def getStrAttr (a : DieAttrs) : StrAt → Option StrAttr
  | .linkage => a.linkage_name
  | .nameAt => a.name

/-- Model of `str_attr`: resolve the attribute directly, else follow
`DW_AT_abstract_origin` by unit offset.  The source recurses unboundedly
(a cyclic origin chain loops forever); the model carries fuel and maps
fuel exhaustion, an invalid origin offset (`entries_at_offset` error)
and an unexpected origin form (the `panic!("wat")` arm) to the outer
`none`.  The inner `Option` is the resolved string or absence. -/
def str_attr (root : Die) (which : StrAt) : Nat → Die → Option (Option String)
  | 0, _ => none
  | fuel + 1, entry =>
    match getStrAttr entry.attrs which with
    | some x => some x.string_value
    | none =>
      match entry.attrs.abstract_origin with
      | some (.unitRef off) =>
        match (dfsList root)[off]? with
        | some e2 => str_attr root which fuel e2
        | none => none
      | none => some none
      | some .otherForm => none

/-- Fuel that suffices for any acyclic origin chain inside a unit. -/
def strFuel (root : Die) : Nat := (dfsList root).length + 1

/-- Model of `Function::demangled_name`.  The two demanglers are
external collaborators (`rustc_demangle::try_demangle` composed with
`ToString`, and `cpp_demangle::Symbol::new` composed with `demangle`),
modelled as function parameters returning `none` on failure; the
compile-time feature gates are taken as enabled. -/
def demangled_name (rustDem cppDem : String → Option String)
    (lang : DwLang) (name : String) : Option String :=
  match lang with
  | .rust => rustDem name
  | .cPlusPlus => cppDem name
  | .cPlusPlus03 => cppDem name
  | .cPlusPlus11 => cppDem name
  | .cPlusPlus14 => cppDem name
  | .otherLang => none

/-- Model of the `Display` impl for `Function`: the demangled name when
there is one, otherwise the raw name. -/
def display_name (rustDem cppDem : String → Option String)
    (lang : DwLang) (raw : String) : String :=
  (demangled_name rustDem cppDem lang raw).getD raw

/-- The caller-visible fields of a `Function` handle: the resolved name
and the language (the cursor is modelled separately where needed). -/
structure FunctionInfo where
  name : String
  language : DwLang
deriving DecidableEq

/-- Model of `Frame`. -/
structure FrameM where
  function : Option FunctionInfo
  location : Option Location
deriving DecidableEq

/-- The call-site location an `inlined_subroutine` DIE stores into
`self.next` (`DW_AT_call_file` / `DW_AT_call_line` /
`DW_AT_call_column`). -/
def callSiteLocation (u : ResUnit) (entry : Die) : Location :=
  { file :=
      match entry.attrs.call_file with
      | some (.fileIndex fi) =>
        (headerFile u.inner.lnp fi).map (render_file u.inner.comp_dir)
      | _ => none
    line := entry.attrs.call_line.bind UdataAttr.udata_value
    column := entry.attrs.call_column.bind UdataAttr.udata_value }

/-- Drains `IterFrames`: `next` is the carried location slot, the list
the remaining depth-sorted function matches.  `none` models a panic
while iterating (unreadable DIE, `str_attr` hazards); each step mirrors
the `(self.next.take(), self.funcs.next())` match of the source. -/
def iterFramesList (units : List ResUnit) (next : Option Location) :
    List Func → Option (List FrameM)
  | [] =>
    match next with
    | some loc => some [⟨none, some loc⟩]
    | none => some []
  | f :: rest =>
    match units[f.unit_id]? with
    | none => none
    | some unit =>
      match (dfsList unit.root)[f.entry_off]? with
      | none => none
      | some entry =>
        match str_attr unit.root .linkage (strFuel unit.root) entry with
        | none => none
        | some name =>
          let nextLoc : Option Location :=
            if entry.tag = DwTag.inlinedSubroutine then
              some (callSiteLocation unit entry)
            else none
          (iterFramesList units nextLoc rest).map fun fs =>
            ⟨name.map fun n => ⟨n, unit.inner.lang⟩, next⟩ :: fs

/-- The depth-sorted function matches of `query`: the interval tree's
point query (all elements whose range contains the probe) sorted by
decreasing depth (`sort_by_key(|x| -x.depth)`). -/
def queryMatches (fc : FullContext) (probe : Nat) : List Func :=
  List.insertionSort (fun a b => b.depth ≤ a.depth)
    ((fc.funcs.filter fun e => e.1.begin ≤ probe ∧ probe < e.1.end').map Prod.snd)

/-- The location baseline `query` computes before building the frame
iterator: resolve within the innermost match's CU when a match exists,
else fall back to `find_location`.  The outer `Option` models the
index panic on a dangling `unit_id`. -/
def queryBaseline (fc : FullContext) (probe : Nat) : Option (Option Location) :=
  match (queryMatches fc probe).head? with
  | some r =>
    (fc.light.units[r.unit_id]?).map fun u =>
      Context.find_location_inner probe u.inner
  | none => some (fc.light.find_location probe)

/-- Model of `FullContext::query`, drained into the full frame list. -/
def FullContext.query (fc : FullContext) (probe : Nat) : Option (List FrameM) :=
  match queryBaseline fc probe with
  | none => none
  | some loc => iterFramesList fc.light.units loc (queryMatches fc probe)

/-- Model of `StackVar`. -/
structure StackVar where
  data : List Nat
  name : Option String
deriving DecidableEq

/-- Drains `StackVarIter` over a forest of sibling DIEs (the children
of the anchor or of an entered lexical block).  A matching `variable`
DIE yields an entry and iteration resumes at its next sibling; a
`lexical_block` is entered when one of its ranges covers the probe or
when it carries no range information, and skipped otherwise; any other
tag moves to the next sibling.  `none` models a panic.  The recursion
is bounded by fuel so that it computes structurally; one fuel unit is
spent per visited DIE, so any fuel beyond the forest's DIE count never
runs out. -/
def stackVarsList (root : Die) (probe : Nat) : Nat → List Die → Option (List StackVar)
  | 0, _ => none
  | _fuel + 1, [] => some []
  | fuel + 1, .mk t a cs :: rest =>
    match t with
    | DwTag.variableDie =>
      match a.location with
      | some (.debugLocRef es) =>
        match es.find? fun l =>
            decide (l.range.begin ≤ probe) && decide (l.range.end' > probe) with
        | some loc =>
          match str_attr root .nameAt (strFuel root) (.mk t a cs) with
          | none => none
          | some nm =>
            (stackVarsList root probe fuel rest).map fun vs => ⟨loc.data, nm⟩ :: vs
        | none => stackVarsList root probe fuel rest
      | _ => stackVarsList root probe fuel rest
    | DwTag.lexicalBlock =>
      match read_ranges a with
      | none => none
      | some none =>
        match stackVarsList root probe fuel cs, stackVarsList root probe fuel rest with
        | some inner, some outer => some (inner ++ outer)
        | _, _ => none
      | some (some rs) =>
        if rs.any fun r => decide (r.begin ≤ probe) && decide (r.end' > probe) then
          match stackVarsList root probe fuel cs, stackVarsList root probe fuel rest with
          | some inner, some outer => some (inner ++ outer)
          | _, _ => none
        else stackVarsList root probe fuel rest
    | _ => stackVarsList root probe fuel rest

/-- Model of `Function::stack_variables_at`: the cursor starts on the
anchor DIE at depth 0, so the constrained DFS ranges over the anchor's
children and ends when the depth returns to 0. -/
def stack_variables_at (root : Die) (probe : Nat) (anchor : Die) :
    Option (List StackVar) :=
  stackVarsList root probe ((dfsDepthChildren anchor.children 1).length + 1)
    anchor.children

/-- Containment of a probe in a half-open range. -/
def containsPt (r : Range) (p : Nat) : Prop := r.begin ≤ p ∧ p < r.end'

instance (r : Range) (p : Nat) : Decidable (containsPt r p) :=
  inferInstanceAs (Decidable (_ ∧ _))

/-- Containment of a probe in a line sequence. -/
def seqContains (ln : LineSeq) (p : Nat) : Prop := ln.start ≤ p ∧ p < ln.end'

instance (ln : LineSeq) (p : Nat) : Decidable (seqContains ln p) :=
  inferInstanceAs (Decidable (_ ∧ _))

/-- The scope predicate of the stack-variable contract: the variable is
reachable from the anchored forest through lexical blocks that either
cover the probe or carry no range information, and it owns a
location-list entry covering the probe whose expression is the yielded
data. -/
inductive VarInScope (probe : Nat) : List Die → StackVar → Prop where
  | here {d : Die} {rest : List Die} {es : List LocEntry} {e : LocEntry} {sv : StackVar} :
      d.tag = DwTag.variableDie →
      d.attrs.location = some (.debugLocRef es) →
      e ∈ es → e.range.begin ≤ probe → probe < e.range.end' →
      sv.data = e.data →
      VarInScope probe (d :: rest) sv
  | there {d : Die} {rest : List Die} {sv : StackVar} :
      VarInScope probe rest sv → VarInScope probe (d :: rest) sv
  | block {d : Die} {rest : List Die} {sv : StackVar} :
      d.tag = DwTag.lexicalBlock →
      (read_ranges d.attrs = some none ∨
        ∃ rs, read_ranges d.attrs = some (some rs) ∧
          ∃ r ∈ rs, r.begin ≤ probe ∧ probe < r.end') →
      VarInScope probe d.children sv →
      VarInScope probe (d :: rest) sv

/-- Example line program: one file, one sequence over `[0, 100)` with a
single row at address 0. -/
def lpBasic : LineProg :=
  ⟨[⟨none, "main.c"⟩], [⟨0, 100, [⟨0, some ⟨none, "main.c"⟩, some 1, .leftEdge⟩]⟩]⟩

/-- Example debug-line section holding `lpBasic` at offset 0. -/
def sectionsBasic : SectionsIn := ⟨[(0, lpBasic)]⟩

/-- An inlined subroutine over `[0, 10)` with no linkage name and no
abstract origin. -/
def dieInlNoName : Die :=
  .mk .inlinedSubroutine { low_pc := some (.addr 0), high_pc := some (.addr 10) } []

/-- A CU whose root covers `[0, 100)` and holds `dieInlNoName`. -/
def rootC1 : Die :=
  .mk .compileUnit
    { stmt_list := some (.debugLineRef 0), low_pc := some (.addr 0),
      language := some (.language .rust),
      ranges := some (.debugRangesRef [⟨0, 100⟩]) } [dieInlNoName]

def ctxC1 : Context := (Context.new sectionsBasic [⟨some rootC1⟩]).getD ⟨[], []⟩

def fcC1 : FullContext := (ctxC1.parse_functions).getD ⟨[], ctxC1⟩

/-- Example line program whose only sequence `[50, 60)` misses part of
the owning CU's range. -/
def lpGap : LineProg := ⟨[], [⟨50, 60, [⟨50, none, some 2, .leftEdge⟩]⟩]⟩

def sectionsGap : SectionsIn := ⟨[(0, lpGap)]⟩

/-- A CU whose root covers `[0, 100)` but whose line program only
covers `[50, 60)`. -/
def rootC2 : Die :=
  .mk .compileUnit
    { stmt_list := some (.debugLineRef 0), low_pc := some (.addr 0),
      language := some (.language .rust),
      ranges := some (.debugRangesRef [⟨0, 100⟩]) } []

def ctxC2 : Context := (Context.new sectionsGap [⟨some rootC2⟩]).getD ⟨[], []⟩

/-- A subprogram over `[10, 20)` with a linkage name. -/
def subprogC4 : Die :=
  .mk .subprogram
    { low_pc := some (.addr 10), high_pc := some (.addr 20),
      linkage_name := some (.strval "f") } []

/-- A CU whose root has an explicit empty range list, so it contributes
nothing to the unit-range table, yet holds a subprogram. -/
def rootC4 : Die :=
  .mk .compileUnit
    { stmt_list := some (.debugLineRef 0), low_pc := some (.addr 0),
      language := some (.language .rust),
      ranges := some (.debugRangesRef []) } [subprogC4]

def lpC4 : LineProg := ⟨[], [⟨10, 20, [⟨10, none, some 3, .column 2⟩]⟩]⟩

def sectionsC4 : SectionsIn := ⟨[(0, lpC4)]⟩

def ctxC4 : Context := (Context.new sectionsC4 [⟨some rootC4⟩]).getD ⟨[], []⟩

def fcC4 : FullContext := (ctxC4.parse_functions).getD ⟨[], ctxC4⟩

/-- A subprogram with the empty range `[5, 5)`. -/
def subprogEmpty : Die :=
  .mk .subprogram { low_pc := some (.addr 5), high_pc := some (.addr 5) } []

def rootC6 : Die :=
  .mk .compileUnit
    { stmt_list := some (.debugLineRef 0), low_pc := some (.addr 0),
      language := some (.language .rust),
      ranges := some (.debugRangesRef [⟨0, 100⟩]) } [subprogEmpty]

def ctxC6 : Context := (Context.new sectionsBasic [⟨some rootC6⟩]).getD ⟨[], []⟩

def fcC6 : FullContext := (ctxC6.parse_functions).getD ⟨[], ctxC6⟩

/-- Example line program whose sequence `[0, 100)` has its only row at
address 50. -/
def lpLate : LineProg :=
  ⟨[⟨none, "main.c"⟩], [⟨0, 100, [⟨50, some ⟨none, "main.c"⟩, some 7, .column 3⟩]⟩]⟩

def sectionsLate : SectionsIn := ⟨[(0, lpLate)]⟩

def rootC10 : Die :=
  .mk .compileUnit
    { stmt_list := some (.debugLineRef 0), low_pc := some (.addr 0),
      language := some (.language .rust),
      ranges := some (.debugRangesRef [⟨0, 100⟩]) } []

def ctxC10 : Context := (Context.new sectionsLate [⟨some rootC10⟩]).getD ⟨[], []⟩

/-- A CU root missing `DW_AT_stmt_list` entirely. -/
def cuBad : RawCU :=
  ⟨some (.mk .compileUnit
    { low_pc := some (.addr 0), language := some (.language .rust) } [])⟩

/-- A CU root with a proper `stmt_list` but no `low_pc`. -/
def cuSkip : RawCU :=
  ⟨some (.mk .compileUnit
    { stmt_list := some (.debugLineRef 0),
      language := some (.language .rust) } [])⟩

/-- A variable whose location list covers `[2, 5)` with expression
`[7]`. -/
def varDie : Die :=
  .mk .variableDie { location := some (.debugLocRef [⟨⟨2, 5⟩, [7]⟩]),
                     name := some (.strval "v") } []

/-- A lexical block over `[0, 10)` holding `varDie`. -/
def blockDie : Die :=
  .mk .lexicalBlock { low_pc := some (.addr 0), high_pc := some (.addr 10) } [varDie]

/-- A subprogram holding `blockDie`. -/
def funcDie : Die := .mk .subprogram {} [blockDie]

/-- The depth-descending comparison used by the sort in `query` is
total. -/
instance : IsTotal Func fun a b => b.depth ≤ a.depth :=
  ⟨fun a b => le_total b.depth a.depth⟩

/-- The depth-descending comparison used by the sort in `query` is
transitive. -/
instance : IsTrans Func fun a b => b.depth ≤ a.depth :=
  ⟨fun _ _ _ hab hbc => le_trans hbc hab⟩

/-- The concrete frame list `query` yields on `fcC1` at probe 5. -/
def fsC1 : List FrameM :=
  [⟨none, some ⟨some ["main.c"], some 1, none⟩⟩, ⟨none, some ⟨none, none, none⟩⟩]

/-- A comparator profile fit for binary search: along the list, `lt`
results only precede and `gt` results only follow any `eq`. -/
def MonoAt (f : α → Ordering) (l : List α) : Prop :=
  ∀ i j (hi : i < l.length) (hj : j < l.length), i < j →
    (f l[j] = .lt → f l[i] = .lt) ∧ (f l[i] = .gt → f l[j] = .gt)

/-- A successful `bsGo` lands on an index whose comparator value is
`Equal`, inside the searched window. -/
theorem bsGo_ok (f : α → Ordering) (l : List α) :
    ∀ fuel left right k, bsGo f l fuel left right = .ok k →
      ∃ hk : k < l.length, f l[k] = .eq ∧ left ≤ k ∧ k < right := by
  intro fuel
  induction fuel with
  | zero =>
    intro left right k h
    exact Except.noConfusion h
  | succ fuel ih =>
    intro left right k h
    rw [bsGo] at h
    by_cases hlr : left < right
    · rw [if_pos hlr] at h
      cases hx : l[left + (right - left) / 2]? with
      | none =>
        simp only [hx] at h
        exact Except.noConfusion h
      | some x =>
        simp only [hx] at h
        cases hfx : f x with
        | lt =>
          simp only [hfx] at h
          obtain ⟨hk, heq, hlk, hkr⟩ := ih _ _ _ h
          exact ⟨hk, heq, by omega, hkr⟩
        | gt =>
          simp only [hfx] at h
          obtain ⟨hk, heq, hlk, hkr⟩ := ih _ _ _ h
          exact ⟨hk, heq, hlk, by omega⟩
        | eq =>
          simp only [hfx, Except.ok.injEq] at h
          subst h
          rcases List.getElem?_eq_some.mp hx with ⟨hh, hv⟩
          refine ⟨hh, ?_, by omega, by omega⟩
          rw [hv]
          exact hfx
    · rw [if_neg hlr] at h
      exact Except.noConfusion h

/-- With enough fuel and a monotone comparator profile, `bsGo` succeeds
whenever the window holds an index with comparator value `Equal`. -/
theorem bsGo_finds (f : α → Ordering) (l : List α) (hmono : MonoAt f l) :
    ∀ fuel left right, right - left < fuel → right ≤ l.length →
      (∃ i, ∃ hi : i < l.length, left ≤ i ∧ i < right ∧ f l[i] = .eq) →
      ∃ k, bsGo f l fuel left right = .ok k := by
  intro fuel
  induction fuel with
  | zero =>
    intro left right hfuel hle hex
    obtain ⟨i, hi, hli, hir, _⟩ := hex
    omega
  | succ fuel ih =>
    intro left right hfuel hle hex
    obtain ⟨i, hi, hli, hir, heq⟩ := hex
    have hlr : left < right := by omega
    cases hx : l[left + (right - left) / 2]? with
    | none =>
      rw [List.getElem?_eq_none_iff] at hx
      omega
    | some x =>
      rcases List.getElem?_eq_some.mp hx with ⟨hm, hv⟩
      cases hfx : f x with
      | lt =>
        have hmi : left + (right - left) / 2 < i := by
          by_contra hcon
          push_neg at hcon
          rcases Nat.lt_or_ge i (left + (right - left) / 2) with hlt | hge
          · have := (hmono i (left + (right - left) / 2) hi hm hlt).1
            rw [hv, hfx] at this
            rw [this rfl] at heq
            exact Ordering.noConfusion heq
          · have : i = left + (right - left) / 2 := by omega
            subst this
            rw [hv] at heq
            rw [hfx] at heq
            exact Ordering.noConfusion heq
        obtain ⟨k, hk⟩ :=
          ih (left + (right - left) / 2 + 1) right (by omega) hle
            ⟨i, hi, by omega, hir, heq⟩
        refine ⟨k, ?_⟩
        rw [bsGo, if_pos hlr]
        simp only [hx, hfx]
        exact hk
      | gt =>
        have hmi : i < left + (right - left) / 2 := by
          by_contra hcon
          push_neg at hcon
          rcases Nat.lt_or_ge (left + (right - left) / 2) i with hlt | hge
          · have := (hmono (left + (right - left) / 2) i hm hi hlt).2
            rw [hv, hfx] at this
            rw [this rfl] at heq
            exact Ordering.noConfusion heq
          · have : i = left + (right - left) / 2 := by omega
            subst this
            rw [hv] at heq
            rw [hfx] at heq
            exact Ordering.noConfusion heq
        obtain ⟨k, hk⟩ :=
          ih left (left + (right - left) / 2) (by omega) (by omega)
            ⟨i, hi, hli, by omega, heq⟩
        refine ⟨k, ?_⟩
        rw [bsGo, if_pos hlr]
        simp only [hx, hfx]
        exact hk
      | eq =>
        refine ⟨left + (right - left) / 2, ?_⟩
        rw [bsGo, if_pos hlr]
        simp only [hx, hfx]

/-- Characterization of the unit-range comparator. -/
theorem unitRangeCmp_eq_iff (probe : Nat) (r : Range × Nat) :
    unitRangeCmp probe r = .eq ↔ containsPt r.1 probe := by
  unfold unitRangeCmp containsPt
  split_ifs with h1 h2 <;> simp <;> omega

theorem unitRangeCmp_lt_iff (probe : Nat) (r : Range × Nat) :
    unitRangeCmp probe r = .lt ↔ r.1.begin ≤ probe ∧ r.1.end' ≤ probe := by
  unfold unitRangeCmp
  split_ifs with h1 h2 <;> simp <;> omega

theorem unitRangeCmp_gt_iff (probe : Nat) (r : Range × Nat) :
    unitRangeCmp probe r = .gt ↔ probe < r.1.begin := by
  unfold unitRangeCmp
  split_ifs with h1 h2 <;> simp <;> omega

/-- Characterization of the sequence comparator. -/
theorem seqCmp_eq_iff (probe : Nat) (ln : LineSeq) :
    seqCmp probe ln = .eq ↔ seqContains ln probe := by
  unfold seqCmp seqContains
  split_ifs with h1 h2 <;> simp <;> omega

theorem seqCmp_lt_iff (probe : Nat) (ln : LineSeq) :
    seqCmp probe ln = .lt ↔ ln.start ≤ probe ∧ ln.end' ≤ probe := by
  unfold seqCmp
  split_ifs with h1 h2 <;> simp <;> omega

theorem seqCmp_gt_iff (probe : Nat) (ln : LineSeq) :
    seqCmp probe ln = .gt ↔ probe < ln.start := by
  unfold seqCmp
  split_ifs with h1 h2 <;> simp <;> omega

/-- A begin-sorted, pairwise-disjoint unit-range table yields a
monotone comparator profile. -/
theorem monoAt_unitRanges (probe : Nat) (l : List (Range × Nat))
    (hsort : l.Pairwise (fun a b => a.1.begin ≤ b.1.begin))
    (hdisj : l.Pairwise (fun a b => a.1.end' ≤ b.1.begin)) :
    MonoAt (unitRangeCmp probe) l := by
  intro i j hi hj hij
  have hs := List.pairwise_iff_getElem.mp hsort i j hi hj hij
  have hd := List.pairwise_iff_getElem.mp hdisj i j hi hj hij
  constructor
  · intro hlt
    rw [unitRangeCmp_lt_iff] at hlt ⊢
    omega
  · intro hgt
    rw [unitRangeCmp_gt_iff] at hgt ⊢
    omega

/-- A start-sorted, pairwise-disjoint sequence table yields a monotone
comparator profile. -/
theorem monoAt_seqs (probe : Nat) (l : List LineSeq)
    (hsort : l.Pairwise (fun a b => a.start ≤ b.start))
    (hdisj : l.Pairwise (fun a b => a.end' ≤ b.start)) :
    MonoAt (seqCmp probe) l := by
  intro i j hi hj hij
  have hs := List.pairwise_iff_getElem.mp hsort i j hi hj hij
  have hd := List.pairwise_iff_getElem.mp hdisj i j hi hj hij
  constructor
  · intro hlt
    rw [seqCmp_lt_iff] at hlt ⊢
    omega
  · intro hgt
    rw [seqCmp_gt_iff] at hgt ⊢
    omega

/-- On a pairwise-disjoint unit-range table, at most one entry contains
a given probe. -/
theorem containsPt_unique (probe : Nat) (l : List (Range × Nat))
    (hdisj : l.Pairwise (fun a b => a.1.end' ≤ b.1.begin))
    (i j : Nat) (hi : i < l.length) (hj : j < l.length)
    (hci : containsPt l[i].1 probe) (hcj : containsPt l[j].1 probe) : i = j := by
  rcases Nat.lt_trichotomy i j with h | h | h
  · have := List.pairwise_iff_getElem.mp hdisj i j hi hj h
    unfold containsPt at hci hcj
    omega
  · exact h
  · have := List.pairwise_iff_getElem.mp hdisj j i hj hi h
    unfold containsPt at hci hcj
    omega

/-- On a pairwise-disjoint sequence table, at most one sequence
contains a given probe. -/
theorem seqContains_unique (probe : Nat) (l : List LineSeq)
    (hdisj : l.Pairwise (fun a b => a.end' ≤ b.start))
    (i j : Nat) (hi : i < l.length) (hj : j < l.length)
    (hci : seqContains l[i] probe) (hcj : seqContains l[j] probe) : i = j := by
  rcases Nat.lt_trichotomy i j with h | h | h
  · have := List.pairwise_iff_getElem.mp hdisj i j hi hj h
    unfold seqContains at hci hcj
    omega
  · exact h
  · have := List.pairwise_iff_getElem.mp hdisj j i hj hi h
    unfold seqContains at hci hcj
    omega

/-- When no unit range contains the probe, `find_location` misses. -/
theorem find_location_none_of_no_range (ctx : Context) (probe : Nat)
    (h : ∀ p ∈ ctx.unit_ranges, ¬ containsPt p.1 probe) :
    ctx.find_location probe = none := by
  cases hbs : binary_search_by (unitRangeCmp probe) ctx.unit_ranges with
  | error e => simp only [Context.find_location, hbs]
  | ok k =>
    obtain ⟨hk, heq, -, -⟩ := bsGo_ok _ _ _ 0 _ k hbs
    exact absurd ((unitRangeCmp_eq_iff probe _).mp heq) (h _ (List.getElem_mem hk))

/-- When no sequence of the unit contains the probe,
`find_location_inner` misses. -/
theorem find_location_inner_none_of_no_seq (probe : Nat) (uunit : UnitInner)
    (h : ∀ ln ∈ uunit.sequences, ¬ seqContains ln probe) :
    Context.find_location_inner probe uunit = none := by
  cases hbs : binary_search_by (seqCmp probe) uunit.sequences with
  | error e => simp only [Context.find_location_inner, hbs]
  | ok k =>
    obtain ⟨hk, heq, -, -⟩ := bsGo_ok _ _ _ 0 _ k hbs
    exact absurd ((seqCmp_eq_iff probe _).mp heq) (h _ (List.getElem_mem hk))

/-- On a sorted, disjoint sequence table, `find_location_inner`
resolves to the location of the sequence containing the probe. -/
theorem find_location_inner_eq (probe : Nat) (uunit : UnitInner)
    (hsort : uunit.sequences.Pairwise (fun a b => a.start ≤ b.start))
    (hdisj : uunit.sequences.Pairwise (fun a b => a.end' ≤ b.start))
    (i : Nat) (hi : i < uunit.sequences.length)
    (hc : seqContains uunit.sequences[i] probe) :
    Context.find_location_inner probe uunit =
      some (seqLocation probe uunit uunit.sequences[i]) := by
  obtain ⟨k, hbs⟩ :=
    bsGo_finds (seqCmp probe) uunit.sequences (monoAt_seqs probe _ hsort hdisj)
      (uunit.sequences.length + 1) 0 uunit.sequences.length (by omega) le_rfl
      ⟨i, hi, Nat.zero_le _, hi, (seqCmp_eq_iff probe _).mpr hc⟩
  obtain ⟨hk, heqk, -, -⟩ := bsGo_ok _ _ _ 0 _ k hbs
  have hki : k = i :=
    seqContains_unique probe _ hdisj k i hk hi ((seqCmp_eq_iff probe _).mp heqk) hc
  subst hki
  simp only [Context.find_location_inner, binary_search_by, hbs,
    List.getElem?_eq_getElem hk]

/-- On a sorted, disjoint unit-range table with valid unit ids,
`find_location` dispatches to `find_location_inner` of the unit whose
range contains the probe. -/
theorem find_location_eq_inner (ctx : Context) (probe : Nat)
    (hsort : ctx.unit_ranges.Pairwise (fun a b => a.1.begin ≤ b.1.begin))
    (hdisj : ctx.unit_ranges.Pairwise (fun a b => a.1.end' ≤ b.1.begin))
    (hids : ∀ p ∈ ctx.unit_ranges, p.2 < ctx.units.length)
    (i : Nat) (hi : i < ctx.unit_ranges.length)
    (hc : containsPt ctx.unit_ranges[i].1 probe) :
    ∃ hu : ctx.unit_ranges[i].2 < ctx.units.length,
      ctx.find_location probe =
        Context.find_location_inner probe ctx.units[ctx.unit_ranges[i].2].inner := by
  have hu : ctx.unit_ranges[i].2 < ctx.units.length := hids _ (List.getElem_mem hi)
  obtain ⟨k, hbs⟩ :=
    bsGo_finds (unitRangeCmp probe) ctx.unit_ranges
      (monoAt_unitRanges probe _ hsort hdisj)
      (ctx.unit_ranges.length + 1) 0 ctx.unit_ranges.length (by omega) le_rfl
      ⟨i, hi, Nat.zero_le _, hi, (unitRangeCmp_eq_iff probe _).mpr hc⟩
  obtain ⟨hk, heqk, -, -⟩ := bsGo_ok _ _ _ 0 _ k hbs
  have hki : k = i :=
    containsPt_unique probe _ hdisj k i hk hi
      ((unitRangeCmp_eq_iff probe _).mp heqk) hc
  subst hki
  refine ⟨hu, ?_⟩
  simp only [Context.find_location, binary_search_by, hbs,
    List.getElem?_eq_getElem hk, List.get_eq_getElem,
    List.getElem?_eq_getElem hu]

/-- C7: a DIE without `DW_AT_ranges` but with an address-form `low_pc`
and a `high_pc` synthesizes exactly one range — `[low_pc, high_pc)`
for an address-form `high_pc`, `[low_pc, low_pc + high_pc)` for an
unsigned-constant `high_pc` — and a DIE with neither ranges nor
`low_pc`, or with `low_pc` but no `high_pc`, reports no range
information. -/
theorem c7_read_ranges_synthesis (a : DieAttrs) (h : a.ranges = none) :
    (∀ low, a.low_pc = some (.addr low) →
      (∀ high, a.high_pc = some (.addr high) →
        read_ranges a = some (some [⟨low, high⟩])) ∧
      (∀ x, a.high_pc = some (.udata x) →
        read_ranges a = some (some [⟨low, low + x⟩])) ∧
      (a.high_pc = none → read_ranges a = some none)) ∧
    (a.low_pc = none → read_ranges a = some none) := by
  constructor
  · intro low hlow
    refine ⟨?_, ?_, ?_⟩
    · intro high hhigh
      simp [read_ranges, h, hlow, hhigh]
    · intro x hx
      simp [read_ranges, h, hlow, hx]
    · intro hnone
      simp [read_ranges, h, hlow, hnone]
  · intro hlow
    simp [read_ranges, h, hlow]

/-- Witness for C7 at a concrete DIE: `low_pc = 3`, `high_pc` the
unsigned constant 4, yielding the single range `[3, 7)`. -/
theorem c7_witness :
    read_ranges { low_pc := some (.addr 3), high_pc := some (.udata 4) }
      = some (some [⟨3, 7⟩]) :=
  ((c7_read_ranges_synthesis
    { low_pc := some (.addr 3), high_pc := some (.udata 4) } rfl).1
    3 rfl).2.1 4 rfl

/-- C9 counterexample: for a function in an unrecognised language,
`demangled_name` returns `None`, not the raw name `"foo"` the claim
promises. -/
theorem c9_counterexample :
    demangled_name (fun _ => none) (fun _ => none) DwLang.otherLang "foo"
      ≠ some "foo" := by
  decide

/-- C9 amended: when demangling is unavailable for the function's
language or the demangler fails on the name, `demangled_name` returns
no demangled name (`None`); the raw name is only substituted by the
`Display` rendering. -/
theorem c9_amended (rustDem cppDem : String → Option String)
    (lang : DwLang) (name : String)
    (h : lang = .otherLang ∨
         (lang = .rust ∧ rustDem name = none) ∨
         ((lang = .cPlusPlus ∨ lang = .cPlusPlus03 ∨
           lang = .cPlusPlus11 ∨ lang = .cPlusPlus14) ∧ cppDem name = none)) :
    demangled_name rustDem cppDem lang name = none ∧
    display_name rustDem cppDem lang name = name := by
  have hd : demangled_name rustDem cppDem lang name = none := by
    rcases h with h | ⟨h1, h2⟩ | ⟨h1, h2⟩
    · subst h
      rfl
    · subst h1
      simpa [demangled_name] using h2
    · rcases h1 with h1 | h1 | h1 | h1 <;> subst h1 <;>
        simpa [demangled_name] using h2
  exact ⟨hd, by simp [display_name, hd]⟩

/-- Witness for C9 amended: a failing Rust demangler on `"foo"`. -/
theorem c9_witness :
    demangled_name (fun _ => none) (fun _ => none) DwLang.rust "foo" = none ∧
    display_name (fun _ => none) (fun _ => none) DwLang.rust "foo" = "foo" :=
  c9_amended (fun _ => none) (fun _ => none) DwLang.rust "foo"
    (Or.inr (Or.inl ⟨rfl, rfl⟩))

/-- A CU whose root has the compile-unit tag and a proper `stmt_list`
but lacks an address-form `low_pc` or a language is skipped: the build
state passes through unchanged. -/
theorem buildStep_skip (sections : SectionsIn)
    (st : List (Range × Nat) × List ResUnit) (cu : RawCU) (d : Die)
    (hroot : cu.root = some d) (htag : d.tag = DwTag.compileUnit)
    (hstmt : ∃ r, d.attrs.stmt_list = some (.debugLineRef r))
    (hmiss : (∀ a, d.attrs.low_pc ≠ some (.addr a)) ∨
             (∀ lg, d.attrs.language ≠ some (.language lg))) :
    buildStep sections st cu = some st := by
  obtain ⟨r, hstmt⟩ := hstmt
  simp only [buildStep, hroot, if_pos htag, hstmt]
  cases hlow : d.attrs.low_pc with
  | none => rfl
  | some v =>
    cases v with
    | addr a =>
      cases hlang : d.attrs.language with
      | none =>
        rcases hmiss with hm | hm
        · exact absurd hlow (hm a)
        · rfl
      | some w =>
        cases w with
        | language lg =>
          rcases hmiss with hm | hm
          · exact absurd hlow (hm a)
          · exact absurd hlang (hm lg)
        | otherForm =>
          rcases hmiss with hm | hm
          · exact absurd hlow (hm a)
          · rfl
    | udata x => rfl
    | otherForm => rfl

/-- A CU whose root has the compile-unit tag but no `stmt_list` makes
the whole construction abort (`unreachable!`). -/
theorem buildStep_abort (sections : SectionsIn)
    (st : List (Range × Nat) × List ResUnit) (cu : RawCU) (d : Die)
    (hroot : cu.root = some d) (htag : d.tag = DwTag.compileUnit)
    (hstmt : d.attrs.stmt_list = none) :
    buildStep sections st cu = none := by
  simp only [buildStep, hroot, if_pos htag, hstmt]

/-- Splitting `buildAll` over an append. -/
theorem buildAll_append (sections : SectionsIn) :
    ∀ (xs ys : List RawCU) st,
      buildAll sections (xs ++ ys) st =
        match buildAll sections xs st with
        | none => none
        | some st2 => buildAll sections ys st2 := by
  intro xs
  induction xs with
  | nil => intro ys st; rfl
  | cons x rest ih =>
    intro ys st
    simp only [List.cons_append, buildAll]
    cases hb : buildStep sections st x with
    | none => rfl
    | some st2 => exact ih ys st2

/-- C5 corrected: a CU lacking `low_pc` or `language` (with a proper
`stmt_list`) is silently skipped — construction is unchanged by its
presence — but a CU lacking `stmt_list` aborts the whole construction
instead of being skipped. -/
theorem c5_amended (sections : SectionsIn) (l1 l2 : List RawCU)
    (cu : RawCU) (d : Die)
    (hroot : cu.root = some d) (htag : d.tag = DwTag.compileUnit) :
    ((∃ r, d.attrs.stmt_list = some (.debugLineRef r)) →
      ((∀ a, d.attrs.low_pc ≠ some (.addr a)) ∨
       (∀ lg, d.attrs.language ≠ some (.language lg))) →
      Context.new sections (l1 ++ cu :: l2) = Context.new sections (l1 ++ l2)) ∧
    (d.attrs.stmt_list = none →
      Context.new sections (l1 ++ cu :: l2) = none) := by
  constructor
  · intro hstmt hmiss
    unfold Context.new
    rw [buildAll_append, buildAll_append]
    cases hba : buildAll sections l1 ([], []) with
    | none => rfl
    | some st =>
      simp only [buildAll, buildStep_skip sections st cu d hroot htag hstmt hmiss]
  · intro hstmt
    unfold Context.new
    rw [buildAll_append]
    cases hba : buildAll sections l1 ([], []) with
    | none => rfl
    | some st =>
      simp only [buildAll, buildStep_abort sections st cu d hroot htag hstmt]
      rfl

/-- C5 counterexample: a CU whose root lacks `stmt_list` does not get
silently excluded — construction yields no context at all (it panics at
the `unreachable!`). -/
theorem c5_counterexample : Context.new sectionsBasic [cuBad] = none := by
  rfl

/-- Witness for C5 amended: the CU `cuSkip` (no `low_pc`) leaves
construction unchanged. -/
theorem c5_witness :
    Context.new sectionsBasic ([] ++ cuSkip :: []) =
      Context.new sectionsBasic ([] ++ []) :=
  (c5_amended sectionsBasic [] [] cuSkip
    (.mk .compileUnit
      { stmt_list := some (.debugLineRef 0),
        language := some (.language .rust) } [])
    rfl rfl).1 ⟨0, rfl⟩ (Or.inl fun a h => by cases h)

/-- Any unit-range entry a build step adds comes from the
`begin != end` filter, so it is either inherited or non-empty. -/
theorem buildStep_ranges_sub (sections : SectionsIn)
    (st : List (Range × Nat) × List ResUnit) (cu : RawCU)
    (st2 : List (Range × Nat) × List ResUnit)
    (h : buildStep sections st cu = some st2) :
    ∀ p ∈ st2.1, p ∈ st.1 ∨ p.1.begin ≠ p.1.end' := by
  simp only [buildStep] at h
  repeat' split at h
  all_goals first
    | (exact Option.noConfusion h)
    | (injection h with h
       subst h
       intro p hp
       exact Or.inl hp)
    | (injection h with h
       subst h
       intro p hp
       rcases List.mem_append.mp hp with h1 | h1
       · exact Or.inl h1
       · first
         | exact absurd h1 (List.not_mem_nil p)
         | (right
            obtain ⟨r2, hr2, hpr⟩ := List.mem_map.mp h1
            rcases List.mem_filter.mp hr2 with ⟨-, hf⟩
            subst hpr
            simpa using hf))

/-- The non-empty-range invariant is preserved along the whole build. -/
theorem buildAll_ranges_ne (sections : SectionsIn) :
    ∀ (cus : List RawCU) st st2, buildAll sections cus st = some st2 →
      (∀ p ∈ st.1, p.1.begin ≠ p.1.end') →
      ∀ p ∈ st2.1, p.1.begin ≠ p.1.end' := by
  intro cus
  induction cus with
  | nil =>
    intro st st2 h hinv
    injection h with h
    subst h
    exact hinv
  | cons cu rest ih =>
    intro st st2 h hinv
    simp only [buildAll] at h
    cases hb : buildStep sections st cu with
    | none =>
      rw [hb] at h
      exact Option.noConfusion h
    | some stm =>
      rw [hb] at h
      refine ih stm st2 h ?_
      intro p hp
      rcases buildStep_ranges_sub sections st cu stm hb p hp with h1 | h1
      · exact hinv p h1
      · exact h1

/-- C6 corrected: after Light Context construction the unit-range table
contains no element with `begin == end` — but `parse_functions` pushes
function ranges unfiltered, so the function interval tree can contain
empty-range elements. -/
theorem c6_amended (sections : SectionsIn) (cus : List RawCU) (ctx : Context)
    (h : Context.new sections cus = some ctx) :
    ∀ p ∈ ctx.unit_ranges, p.1.begin ≠ p.1.end' := by
  unfold Context.new at h
  cases hb : buildAll sections cus ([], []) with
  | none =>
    rw [hb] at h
    exact Option.noConfusion h
  | some st =>
    rw [hb] at h
    injection h with h
    subst h
    intro p hp
    have hp2 : p ∈ st.1 :=
      (List.mem_insertionSort (fun a b => a.1.begin ≤ b.1.begin)).mp hp
    refine buildAll_ranges_ne sections cus ([], []) st hb ?_ p hp2
    intro q hq
    exact absurd hq (List.not_mem_nil q)

/-- C6 counterexample: the function interval tree built by
`parse_functions` over `rootC6` holds the empty range `[5, 5)` of
`subprogEmpty` — zero-length ranges are not filtered there. -/
theorem c6_counterexample :
    fcC6.funcs.any (fun e => e.1.begin == e.1.end') = true := by
  decide

/-- Witness for C6 amended at the concrete construction of `ctxC6` and
its only unit-range entry `([0, 100), 0)`. -/
theorem c6_witness :
    (⟨⟨0, 100⟩, 0⟩ : Range × Nat) ∈ ctxC6.unit_ranges ∧
    (⟨⟨0, 100⟩, 0⟩ : Range × Nat).1.begin ≠ (⟨⟨0, 100⟩, 0⟩ : Range × Nat).1.end' :=
  ⟨by decide,
   c6_amended sectionsBasic [⟨some rootC6⟩] ctxC6 rfl ⟨⟨0, 100⟩, 0⟩ (by decide)⟩

/-- When every row of a sequence lies beyond the probe, the row walk
never advances past its initial state. -/
theorem walkRows_all_gt (probe : Nat) (rows : List Row)
    (acc : Option FileEntry × Option Nat × Option Nat)
    (h : ∀ r ∈ rows, probe < r.address) :
    walkRows probe rows acc = acc := by
  cases rows with
  | nil => rfl
  | cons r rs =>
    have : r.address > probe := h r (List.mem_cons_self r rs)
    simp only [walkRows, if_pos this]

/-- C2 corrected: `find_location(pc)` misses exactly when `pc` lies
outside every unit range, or lies inside a unit range but inside none
of that CU's line sequences.  (The claim's `None iff outside every unit
range` fails in the second case.) -/
theorem c2_amended (ctx : Context) (probe : Nat)
    (hsort : ctx.unit_ranges.Pairwise fun a b => a.1.begin ≤ b.1.begin)
    (hdisj : ctx.unit_ranges.Pairwise fun a b => a.1.end' ≤ b.1.begin)
    (hids : ∀ p ∈ ctx.unit_ranges, p.2 < ctx.units.length)
    (hseqs : ∀ u ∈ ctx.units,
      (u.inner.sequences.Pairwise fun a b => a.start ≤ b.start) ∧
      (u.inner.sequences.Pairwise fun a b => a.end' ≤ b.start)) :
    ctx.find_location probe = none ↔
      (∀ p ∈ ctx.unit_ranges, ¬ containsPt p.1 probe) ∨
      ∃ i, ∃ hi : i < ctx.unit_ranges.length,
        containsPt ctx.unit_ranges[i].1 probe ∧
        ∃ _hu : ctx.unit_ranges[i].2 < ctx.units.length,
        ∀ ln ∈ ctx.units[ctx.unit_ranges[i].2].inner.sequences,
          ¬ seqContains ln probe := by
  by_cases hex : ∃ i, ∃ hi : i < ctx.unit_ranges.length,
      containsPt ctx.unit_ranges[i].1 probe
  · obtain ⟨i, hi, hc⟩ := hex
    obtain ⟨hu, heq⟩ := find_location_eq_inner ctx probe hsort hdisj hids i hi hc
    have hsp := hseqs _ (List.getElem_mem hu)
    constructor
    · intro hnone
      right
      refine ⟨i, hi, hc, hu, ?_⟩
      intro ln hln hcontra
      obtain ⟨j, hj, hjv⟩ := List.mem_iff_getElem.mp hln
      have hsome :=
        find_location_inner_eq probe _ hsp.1 hsp.2 j hj (by rw [hjv]; exact hcontra)
      rw [heq] at hnone
      rw [hsome] at hnone
      exact Option.noConfusion hnone
    · intro h
      rcases h with h | ⟨i2, hi2, hc2, hu2, hnoseq⟩
      · exact absurd hc (h _ (List.getElem_mem hi))
      · have hii : i2 = i := containsPt_unique probe _ hdisj i2 i hi2 hi hc2 hc
        subst hii
        rw [heq]
        exact find_location_inner_none_of_no_seq probe _ hnoseq
  · constructor
    · intro _
      left
      intro p hp hcp
      obtain ⟨i, hi, hv⟩ := List.mem_iff_getElem.mp hp
      exact hex ⟨i, hi, by rw [hv]; exact hcp⟩
    · intro _
      apply find_location_none_of_no_range
      intro p hp hcp
      obtain ⟨i, hi, hv⟩ := List.mem_iff_getElem.mp hp
      exact hex ⟨i, hi, by rw [hv]; exact hcp⟩

/-- C2 counterexample: in `ctxC2` the probe 5 lies inside the unit
range `[0, 100)`, yet `find_location 5` is `None`, because the CU's
only line sequence is `[50, 60)`. -/
theorem c2_counterexample :
    ctxC2.find_location 5 = none ∧
    ctxC2.unit_ranges.any (fun p => decide (containsPt p.1 5)) = true := by
  constructor
  · decide
  · decide

/-- Witness for C2 amended at `ctxC2`, probe 5: the miss is classified
by the second disjunct. -/
theorem c2_witness :
    (∀ p ∈ ctxC2.unit_ranges, ¬ containsPt p.1 5) ∨
    ∃ i, ∃ hi : i < ctxC2.unit_ranges.length,
      containsPt ctxC2.unit_ranges[i].1 5 ∧
      ∃ _hu : ctxC2.unit_ranges[i].2 < ctxC2.units.length,
      ∀ ln ∈ ctxC2.units[ctxC2.unit_ranges[i].2].inner.sequences,
        ¬ seqContains ln 5 :=
  (c2_amended ctxC2 5 (by decide) (by decide) (by decide) (by decide)).mp
    (by decide)

/-- C4 corrected: when at least one function matched, the location
baseline `query` computes by resolving directly in the innermost
match's CU equals `find_location(pc)` PROVIDED `pc` lies in a unit
range recorded for that same CU; without that proviso the two can
differ (see the counterexample). -/
theorem c4_amended (fc : FullContext) (probe : Nat)
    (hsort : fc.light.unit_ranges.Pairwise fun a b => a.1.begin ≤ b.1.begin)
    (hdisj : fc.light.unit_ranges.Pairwise fun a b => a.1.end' ≤ b.1.begin)
    (hids : ∀ p ∈ fc.light.unit_ranges, p.2 < fc.light.units.length)
    (r : Func) (hr : (queryMatches fc probe).head? = some r)
    (i : Nat) (hi : i < fc.light.unit_ranges.length)
    (hc : containsPt fc.light.unit_ranges[i].1 probe)
    (hid : fc.light.unit_ranges[i].2 = r.unit_id) :
    queryBaseline fc probe = some (fc.light.find_location probe) := by
  obtain ⟨hu, heq⟩ := find_location_eq_inner fc.light probe hsort hdisj hids i hi hc
  have hu2 : r.unit_id < fc.light.units.length := by
    rw [← hid]
    exact hu
  have h1 : fc.light.units[fc.light.unit_ranges[i].2]? =
      fc.light.units[r.unit_id]? := by
    rw [hid]
  rw [List.getElem?_eq_getElem hu, List.getElem?_eq_getElem hu2] at h1
  have h2 := Option.some.inj h1
  simp only [queryBaseline, hr, List.getElem?_eq_getElem hu2, Option.map_some']
  rw [heq, h2]

/-- C4 counterexample: in `fcC4` the probe 15 has a function match, and
the baseline resolved inside that match's CU is a real location, while
`find_location 15` is `None` (the CU contributed no unit range): the
two sides of the claimed equality differ. -/
theorem c4_counterexample :
    queryBaseline fcC4 15 = some (some ⟨none, some 3, some 2⟩) ∧
    fcC4.light.find_location 15 = none ∧
    (queryMatches fcC4 15).length = 1 := by
  refine ⟨by decide, by decide, by decide⟩

/-- Witness for C4 amended at `fcC1`, probe 5: the innermost match's CU
owns the containing unit range, so the bypass agrees with
`find_location`. -/
theorem c4_witness :
    queryBaseline fcC1 5 = some (fcC1.light.find_location 5) :=
  c4_amended fcC1 5 (by decide) (by decide) (by decide)
    ⟨0, 1, 1⟩ (by decide) 0 (by decide) (by decide) (by decide)

/-- C10: when the probe lies in a unit range and in a line sequence of
that CU but every row of the sequence lies beyond the probe,
`find_location` still returns a location, with `file`, `line` and
`column` all `None`. -/
theorem c10_rowless_location (ctx : Context) (probe : Nat)
    (hsort : ctx.unit_ranges.Pairwise fun a b => a.1.begin ≤ b.1.begin)
    (hdisj : ctx.unit_ranges.Pairwise fun a b => a.1.end' ≤ b.1.begin)
    (hids : ∀ p ∈ ctx.unit_ranges, p.2 < ctx.units.length)
    (hseqs : ∀ u ∈ ctx.units,
      (u.inner.sequences.Pairwise fun a b => a.start ≤ b.start) ∧
      (u.inner.sequences.Pairwise fun a b => a.end' ≤ b.start))
    (i : Nat) (hi : i < ctx.unit_ranges.length)
    (hc : containsPt ctx.unit_ranges[i].1 probe)
    (u : ResUnit) (hu2 : ctx.units[ctx.unit_ranges[i].2]? = some u)
    (j : Nat) (hj : j < u.inner.sequences.length)
    (hcs : seqContains u.inner.sequences[j] probe)
    (hrows : ∀ row ∈ u.inner.sequences[j].rows, probe < row.address) :
    ctx.find_location probe = some ⟨none, none, none⟩ := by
  obtain ⟨hu, heq⟩ := find_location_eq_inner ctx probe hsort hdisj hids i hi hc
  rcases List.getElem?_eq_some.mp hu2 with ⟨hu', hv⟩
  have huv : ctx.units[ctx.unit_ranges[i].2] = u := hv
  have hmem : u ∈ ctx.units := by
    rw [← huv]
    exact List.getElem_mem hu'
  have hsp := hseqs u hmem
  rw [heq, huv]
  rw [find_location_inner_eq probe u.inner hsp.1 hsp.2 j hj hcs]
  simp only [seqLocation, walkRows_all_gt probe _ _ hrows, Option.map_none']

/-- Witness for C10 at `ctxC10`, probe 5: the only row sits at address
50, so the location degrades to all-`None` fields. -/
theorem c10_witness : ctxC10.find_location 5 = some ⟨none, none, none⟩ :=
  c10_rowless_location ctxC10 5 (by decide) (by decide) (by decide) (by decide)
    0 (by decide) (by decide)
    ⟨rootC10,
      ⟨lpLate, [⟨0, 100, [⟨50, some ⟨none, "main.c"⟩, some 7, .column 3⟩]⟩],
        none, .rust, 0⟩⟩
    (by rfl) 0 (by decide) (by decide) (by decide)

/-- Drained `IterFrames` shape: one frame per function match, plus at
most one trailing frame, which carries no function and is last. -/
theorem iterFramesList_spec (units : List ResUnit) :
    ∀ (ms : List Func) (next : Option Location) (fs : List FrameM),
      iterFramesList units next ms = some fs →
      ms.length ≤ fs.length ∧ fs.length ≤ ms.length + 1 ∧
      ∀ i (hi : i < fs.length), ms.length ≤ i →
        fs[i].function = none ∧ i + 1 = fs.length := by
  intro ms
  induction ms with
  | nil =>
    intro next fs h
    cases next with
    | none =>
      simp only [iterFramesList] at h
      injection h with h
      subst h
      refine ⟨by simp, by simp, ?_⟩
      intro i hi
      simp at hi
    | some loc =>
      simp only [iterFramesList] at h
      injection h with h
      subst h
      refine ⟨by simp, by simp, ?_⟩
      intro i hi _
      have hi0 : i = 0 := by
        simp at hi
        omega
      subst hi0
      exact ⟨rfl, rfl⟩
  | cons f rest ih =>
    intro next fs h
    simp only [iterFramesList] at h
    cases hu : units[f.unit_id]? with
    | none =>
      rw [hu] at h
      exact Option.noConfusion h
    | some unit =>
      rw [hu] at h
      cases hd : (dfsList unit.root)[f.entry_off]? with
      | none =>
        simp only [hd] at h
        exact Option.noConfusion h
      | some entry =>
        simp only [hd] at h
        cases hs : str_attr unit.root .linkage (strFuel unit.root) entry with
        | none =>
          simp only [hs] at h
          exact Option.noConfusion h
        | some name =>
          simp only [hs] at h
          rw [Option.map_eq_some'] at h
          obtain ⟨fs', hrec, hfs⟩ := h
          subst hfs
          obtain ⟨h1, h2, h3⟩ := ih _ _ hrec
          refine ⟨by simp; omega, by simp; omega, ?_⟩
          intro i hi hge
          simp only [List.length_cons] at hge hi ⊢
          cases i with
          | zero => omega
          | succ i2 =>
            have hi2 : i2 < fs'.length := by
              simp at hi
              omega
            have := h3 i2 hi2 (by omega)
            refine ⟨?_, by omega⟩
            simpa using this.1

/-- C3: the function matches `query` yields frames for are sorted by
non-increasing depth, each match yields exactly one frame in that
order, and the only frame beyond the matches — the one carrying only a
line-program location and no function match — is last. -/
theorem c3_innermost_first (fc : FullContext) (probe : Nat)
    (fs : List FrameM) (h : fc.query probe = some fs) :
    List.Sorted (fun a b => b.depth ≤ a.depth) (queryMatches fc probe) ∧
    (queryMatches fc probe).length ≤ fs.length ∧
    fs.length ≤ (queryMatches fc probe).length + 1 ∧
    ∀ i (hi : i < fs.length), (queryMatches fc probe).length ≤ i →
      fs[i].function = none ∧ i + 1 = fs.length := by
  have hsorted : List.Sorted (fun a b => b.depth ≤ a.depth) (queryMatches fc probe) :=
    List.sorted_insertionSort _ _
  simp only [FullContext.query] at h
  cases hb : queryBaseline fc probe with
  | none =>
    rw [hb] at h
    exact Option.noConfusion h
  | some loc =>
    rw [hb] at h
    obtain ⟨h1, h2, h3⟩ := iterFramesList_spec fc.light.units _ _ _ h
    exact ⟨hsorted, h1, h2, h3⟩

/-- Witness for C3 at `fcC1`, probe 5 and its concrete frame list. -/
theorem c3_witness :
    List.Sorted (fun a b => b.depth ≤ a.depth) (queryMatches fcC1 5) ∧
    (queryMatches fcC1 5).length ≤ fsC1.length ∧
    fsC1.length ≤ (queryMatches fcC1 5).length + 1 ∧
    ∀ i (hi : i < fsC1.length), (queryMatches fcC1 5).length ≤ i →
      fsC1[i].function = none ∧ i + 1 = fsC1.length :=
  c3_innermost_first fcC1 5 fsC1 (by decide)

/-- C1 counterexample: on `fcC1` at probe 5 `query` yields exactly two
frames and both have `function = None` (the matched inlined subroutine
has no resolvable name), so "at most one frame has `function = None`"
fails, and a `None`-function frame occurs in non-final position. -/
theorem c1_counterexample :
    (fcC1.query 5).map (fun fs => fs.countP fun fr => fr.function.isNone)
      = some 2 ∧
    (fcC1.query 5).map List.length = some 2 := by
  exact ⟨by decide, by decide⟩

/-- C1 corrected: at most one frame is yielded beyond the function
matches — the trailing location-only frame, which is last when present
— but a frame whose `function` is `None` can also appear earlier, for a
match whose DIE has no resolvable linkage name. -/
theorem c1_amended (fc : FullContext) (probe : Nat)
    (fs : List FrameM) (h : fc.query probe = some fs) :
    fs.length ≤ (queryMatches fc probe).length + 1 ∧
    ∀ i (hi : i < fs.length), (queryMatches fc probe).length ≤ i →
      fs[i].function = none ∧ i + 1 = fs.length := by
  simp only [FullContext.query] at h
  cases hb : queryBaseline fc probe with
  | none =>
    rw [hb] at h
    exact Option.noConfusion h
  | some loc =>
    rw [hb] at h
    obtain ⟨-, h2, h3⟩ := iterFramesList_spec fc.light.units _ _ _ h
    exact ⟨h2, h3⟩

/-- Witness for C1 amended at `fcC1`, probe 5. -/
theorem c1_witness :
    fsC1.length ≤ (queryMatches fcC1 5).length + 1 ∧
    ∀ i (hi : i < fsC1.length), (queryMatches fcC1 5).length ≤ i →
      fsC1[i].function = none ∧ i + 1 = fsC1.length :=
  c1_amended fcC1 5 fsC1 (by decide)

/-- Every stack variable the drained iterator yields is in scope: it is
reached through lexical blocks covering the probe (or without range
information) and owns a covering location-list entry. -/
theorem stackVarsList_sound (root : Die) (probe : Nat) :
    ∀ (fuel : Nat) (ds : List Die) (vs : List StackVar),
      stackVarsList root probe fuel ds = some vs →
      ∀ sv ∈ vs, VarInScope probe ds sv := by
  intro fuel
  induction fuel with
  | zero =>
    intro ds vs h
    exact Option.noConfusion h
  | succ fuel ih =>
    intro ds vs h
    cases ds with
    | nil =>
      simp only [stackVarsList] at h
      injection h with h
      subst h
      intro sv hsv
      exact absurd hsv (List.not_mem_nil sv)
    | cons d rest =>
      cases d with
      | mk t a cs =>
        simp only [stackVarsList] at h
        cases t with
        | variableDie =>
          cases hl : a.location with
          | none =>
            simp only [hl] at h
            intro sv hsv
            exact .there (ih rest vs h sv hsv)
          | some la =>
            cases la with
            | otherForm =>
              simp only [hl] at h
              intro sv hsv
              exact .there (ih rest vs h sv hsv)
            | debugLocRef es =>
              simp only [hl] at h
              cases hf : es.find? fun l =>
                  decide (l.range.begin ≤ probe) && decide (l.range.end' > probe) with
              | none =>
                simp only [hf] at h
                intro sv hsv
                exact .there (ih rest vs h sv hsv)
              | some loc =>
                simp only [hf] at h
                cases hsa : str_attr root .nameAt (strFuel root)
                    (.mk .variableDie a cs) with
                | none =>
                  simp only [hsa] at h
                  exact Option.noConfusion h
                | some nm =>
                  simp only [hsa] at h
                  rw [Option.map_eq_some'] at h
                  obtain ⟨vs', hrec, hv⟩ := h
                  subst hv
                  intro sv hsv
                  rcases List.mem_cons.mp hsv with rfl | hsv'
                  · have hmem := List.mem_of_find?_eq_some hf
                    have hpred := List.find?_some hf
                    simp only [Bool.and_eq_true, decide_eq_true_eq] at hpred
                    exact VarInScope.here rfl hl hmem hpred.1 hpred.2 rfl
                  · exact .there (ih rest vs' hrec sv hsv')
        | lexicalBlock =>
          cases hr : read_ranges a with
          | none =>
            simp only [hr] at h
            exact Option.noConfusion h
          | some ropt =>
            cases ropt with
            | none =>
              simp only [hr] at h
              cases hin : stackVarsList root probe fuel cs with
              | none =>
                simp only [hin] at h
                exact Option.noConfusion h
              | some inner =>
                cases hout : stackVarsList root probe fuel rest with
                | none =>
                  simp only [hin, hout] at h
                  exact Option.noConfusion h
                | some outer =>
                  simp only [hin, hout] at h
                  injection h with h
                  subst h
                  intro sv hsv
                  rcases List.mem_append.mp hsv with h1 | h1
                  · exact VarInScope.block rfl (Or.inl hr)
                      (ih cs inner hin sv h1)
                  · exact .there (ih rest outer hout sv h1)
            | some rs =>
              simp only [hr] at h
              by_cases hany : (rs.any fun r =>
                  decide (r.begin ≤ probe) && decide (r.end' > probe)) = true
              · rw [if_pos hany] at h
                cases hin : stackVarsList root probe fuel cs with
                | none =>
                  simp only [hin] at h
                  exact Option.noConfusion h
                | some inner =>
                  cases hout : stackVarsList root probe fuel rest with
                  | none =>
                    simp only [hin, hout] at h
                    exact Option.noConfusion h
                  | some outer =>
                    simp only [hin, hout] at h
                    injection h with h
                    subst h
                    intro sv hsv
                    obtain ⟨r2, hr2, hc2⟩ := List.any_eq_true.mp hany
                    simp only [Bool.and_eq_true, decide_eq_true_eq] at hc2
                    rcases List.mem_append.mp hsv with h1 | h1
                    · exact VarInScope.block rfl
                        (Or.inr ⟨rs, hr, r2, hr2, hc2.1, hc2.2⟩)
                        (ih cs inner hin sv h1)
                    · exact .there (ih rest outer hout sv h1)
              · rw [if_neg hany] at h
                intro sv hsv
                exact .there (ih rest vs h sv hsv)
        | compileUnit =>
          intro sv hsv
          exact .there (ih rest vs h sv hsv)
        | subprogram =>
          intro sv hsv
          exact .there (ih rest vs h sv hsv)
        | inlinedSubroutine =>
          intro sv hsv
          exact .there (ih rest vs h sv hsv)
        | otherTag =>
          intro sv hsv
          exact .there (ih rest vs h sv hsv)

/-- C8: every StackVar yielded by `stack_variables_at` comes from a
variable DIE below the anchor whose location list has an entry with
`begin ≤ pc < end` — that entry's expression is the yielded data — and
every lexical block on the path to it covers `pc` or has no range
information at all. -/
theorem c8_stack_vars_in_scope (root : Die) (probe : Nat) (anchor : Die)
    (vs : List StackVar) (h : stack_variables_at root probe anchor = some vs)
    (sv : StackVar) (hm : sv ∈ vs) :
    VarInScope probe anchor.children sv :=
  stackVarsList_sound root probe _ anchor.children vs h sv hm

/-- Witness for C8: the variable `v` of `funcDie` at probe 3, yielded
through the covering block `[0, 10)` from the entry `[2, 5)`. -/
theorem c8_witness : VarInScope 3 funcDie.children ⟨[7], some "v"⟩ :=
  c8_stack_vars_in_scope funcDie 3 funcDie [⟨[7], some "v"⟩]
    (by decide) ⟨[7], some "v"⟩ (by decide)

end Hardliner
